import Mathlib

/-!
Verification development for the codemap live code-graph engine.

The Go sources are embedded shallowly: the pure core of each function is
translated into an executable Lean definition.  Filesystem effects
(directory walking, `ast-grep` extraction, reading `go.mod`) are factored
out as parameters: `BuildFileGraph` becomes a function of the scanned file
list, the detected module name, and the per-file analyses, exactly as the
Go code consumes them.  Go maps are modelled as association lists with
unique keys; a missing key reads as the zero value (empty list), matching
Go map semantics.  Paths use the separator character `/`.  Timestamps are
integer nanoseconds.
-/

namespace Codemap

/-! ## String helpers mirroring the Go `strings` and `path/filepath` calls -/

/-- Go `strings.HasPrefix s pre` on character lists (argument order: pattern first). -/
def hasPreL : List Char → List Char → Bool
  | [], _ => true
  | _ :: _, [] => false
  | p :: ps, c :: cs => p == c && hasPreL ps cs

/-- Go `strings.TrimPrefix s pre` on character lists. -/
def trimPreL (pre s : List Char) : List Char :=
  if hasPreL pre s then s.drop pre.length else s

/-- Go `strings.HasSuffix s suf` on character lists. -/
def hasSufL (suf s : List Char) : Bool :=
  hasPreL suf.reverse s.reverse

/-- Go `strings.TrimSuffix s suf` on character lists. -/
def trimSufL (suf s : List Char) : List Char :=
  if hasSufL suf s then s.take (s.length - suf.length) else s

/-- The cutset of `strings.Trim(imp, quote characters)` in `normalizeImport`. -/
def quoteChars : List Char := ['"', '\x27', '\x60']

/-- Go `strings.Trim s cutset` for the quote cutset: strip leading and trailing quote runs. -/
def trimQuotesL (s : List Char) : List Char :=
  ((s.dropWhile (quoteChars.contains ·)).reverse.dropWhile (quoteChars.contains ·)).reverse

/-- Go `strings.ReplaceAll s "." "/"` (single-character pattern). -/
def replaceDotSlash (s : List Char) : List Char :=
  s.map (fun c => if c == '.' then '/' else c)

/-- Go `strings.ReplaceAll s "::" "/"`: left-to-right, non-overlapping. -/
def replaceColons : List Char → List Char
  | [] => []
  | [c] => [c]
  | a :: b :: rest =>
    if a == ':' && b == ':' then '/' :: replaceColons rest
    else a :: replaceColons (b :: rest)

/-- Whether a character list contains two adjacent colons. -/
def hasDoubleColon : List Char → Bool
  | [] => false
  | [_] => false
  | a :: b :: rest => (a == ':' && b == ':') || hasDoubleColon (b :: rest)

/-- Go `strings.Split s "/"`: always returns at least one (possibly empty) part. -/
def splitSlash : List Char → List (List Char)
  | [] => [[]]
  | '/' :: rest => [] :: splitSlash rest
  | c :: rest =>
    match splitSlash rest with
    | [] => [[c]]
    | h :: t => (c :: h) :: t

/-- Go `strings.Join parts "/"`. -/
def joinSlash (parts : List (List Char)) : List Char :=
  List.intercalate ['/'] parts

/-- Helper for `filepath.Ext`: scan the reversed path, collecting until a dot. -/
def extScan : List Char → List Char → List Char
  | [], _ => []
  | '/' :: _, _ => []
  | '.' :: _, acc => '.' :: acc
  | c :: rest, acc => extScan rest (c :: acc)

/-- Go `filepath.Ext path`: the suffix beginning at the final dot of the final element. -/
def extL (s : List Char) : List Char :=
  extScan s.reverse []

/-- Go `filepath.Dir` for already-clean relative paths: drop the last component, `"."` if none. -/
def dirL (s : List Char) : List Char :=
  let parts := splitSlash s
  if parts.length ≤ 1 then ['.'] else joinSlash parts.dropLast

/-- Go `filepath.Join a b` for clean components (no inner `..` segments). -/
def joinL (a b : List Char) : List Char :=
  if a.isEmpty then b else if b.isEmpty then a else a ++ '/' :: b

/-- String-level wrapper: `strings.HasPrefix s pre`. -/
def strHasPre (pre s : String) : Bool := hasPreL pre.data s.data

/-- String-level wrapper: `strings.HasSuffix s suf`. -/
def strHasSuf (suf s : String) : Bool := hasSufL suf.data s.data

/-- String-level wrapper for `filepath.Dir`. -/
def dirOf (s : String) : String := ⟨dirL s.data⟩

/-- String-level wrapper for `filepath.Ext`. -/
def extOf (s : String) : String := ⟨extL s.data⟩

/-- String-level wrapper for `filepath.Join`. -/
def joinPath (a b : String) : String := ⟨joinL a.data b.data⟩

/-! ## Go maps as association lists with unique keys -/

/-- Go map lookup with comma-ok: `v, ok := m[k]`. -/
def lookup? {α : Type} : List (String × α) → String → Option α
  | [], _ => none
  | (k, v) :: rest, key => if k = key then some v else lookup? rest key

/-- Go map read without comma-ok: missing keys read as the zero value. -/
def lookupD (m : List (String × List String)) (key : String) : List String :=
  (lookup? m key).getD []

/-- Go map assignment `m[k] = v`: update in place, or add the key. -/
def setKey {α : Type} : List (String × α) → String → α → List (String × α)
  | [], key, v => [(key, v)]
  | (k, w) :: rest, key, v =>
    if k = key then (key, v) :: rest else (k, w) :: setKey rest key v

/-- Go `m[k] = append(m[k], x)` for maps of string slices. -/
def appendKey (m : List (String × List String)) (key : String) (x : String) :
    List (String × List String) :=
  setKey m key (lookupD m key ++ [x])

/-- Go `delete(m, k)`. -/
def removeKey {α : Type} (m : List (String × α)) (key : String) : List (String × α) :=
  m.filter (fun q => q.1 ≠ key)

/-! ## Data model (scanner package) -/

/-- A per-file extraction result, as produced by `ScanForDeps` (its path plus
the raw import strings; function names are irrelevant to the graph build). -/
structure AnalysisM where
  path : String
  imports : List String
  deriving DecidableEq, Repr

/-- Go `fileIndex`: the multi-key lookup tables of `buildFileIndex`. -/
structure FileIndexM where
  byExact : List (String × List String)
  bySuffix : List (String × List String)
  byDir : List (String × List String)
  goPkgs : List (String × List String)
  deriving DecidableEq, Repr

/-- Go `FileGraph` (the `Root` field, an absolute filesystem path, is omitted:
no claim mentions it). -/
structure FileGraphM where
  module : String
  imports : List (String × List String)
  importers : List (String × List String)
  packages : List (String × List String)
  deriving DecidableEq, Repr

/-- The post-quote-trim steps of `normalizeImport`: Python dots to slashes,
Rust `crate::` and `super::` handling, in the exact source order. -/
def normalizePost (s0 : List Char) : List Char :=
  let s1 := if s0.contains '.' && !(s0.contains '/') && !(hasPreL ['.'] s0)
              then replaceDotSlash s0 else s0
  let s2 := if hasPreL "crate::".data s1
              then replaceColons (trimPreL "crate::".data s1) else s1
  if hasPreL "super::".data s2 then replaceColons s2 else s2

/-- Go `normalizeImport` from `scanner/filegraph.go`: quote trimming followed by
the dot, `crate::` and `super::` rewrites. -/
def normalizeImport (imp : String) : String :=
  ⟨normalizePost (trimQuotesL imp.data)⟩

/-- The extension candidate list of `tryExactMatch`. -/
def exactExts : List String :=
  ["", ".go", ".py", ".js", ".ts", ".tsx", ".jsx", ".rs", ".rb", ".java",
   "/index.js", "/index.ts", "/index.tsx", "/__init__.py", "/mod.rs"]

/-- Go `tryExactMatch`: first present `byExact` key among `path + ext`. -/
def tryExactMatch (path : String) (idx : FileIndexM) : List String :=
  match exactExts.findSome? (fun ext => lookup? idx.byExact (path ++ ext)) with
  | some files => files
  | none => []

/-- The extension candidate list of `trySuffixMatch`. -/
def suffixExts : List String :=
  ["", ".py", ".js", ".ts", ".tsx", ".jsx", ".rs", ".rb", ".java", ".go"]

/-- Go `trySuffixMatch`: first present `bySuffix` key among `normalized + ext`,
then the Python package form `normalized/__init__.py`. -/
def trySuffixMatch (normalized : String) (idx : FileIndexM) : List String :=
  match suffixExts.findSome? (fun ext => lookup? idx.bySuffix (normalized ++ ext)) with
  | some files => files
  | none =>
    match lookup? idx.bySuffix (joinPath normalized "__init__.py") with
    | some files => files
    | none => []

/-- The `for strings.HasPrefix(rest, "../")` loop of `resolveRelative`:
count and strip leading `../` segments. -/
def stripParents : List Char → Nat × List Char
  | '.' :: '.' :: '/' :: rest =>
    let r := stripParents rest
    (r.1 + 1, r.2)
  | s => (0, s)

/-- Go `resolveRelative`: handle `./foo` and `../bar` imports relative to `fromDir`. -/
def resolveRelative (imp fromDir : String) (idx : FileIndexM) : List String :=
  let lr := stripParents imp.data
  let rest : String := ⟨trimPreL "./".data lr.2⟩
  let targetDir := (List.range lr.1).foldl
    (fun d _ => let d2 := dirOf d; if d2 = "." then "" else d2) fromDir
  let candidate := if targetDir = "" then rest else joinPath targetDir rest
  tryExactMatch candidate idx

/-- Go `fuzzyResolve`: the four resolution strategies with the source control flow
(Go package lookup, relative resolution, exact match, suffix match). -/
def fuzzyResolve (imp fromFile : String) (idx : FileIndexM) (goModule : String) :
    List String :=
  let d := dirOf fromFile
  let fromDir := if d = "." then "" else d
  let normalized := normalizeImport imp
  match (if goModule ≠ "" && strHasPre goModule imp
           then lookup? idx.goPkgs imp else none) with
  | some files => files
  | none =>
    if strHasPre "." imp then resolveRelative imp fromDir idx
    else
      let e := tryExactMatch normalized idx
      if e ≠ [] then e
      else trySuffixMatch normalized idx

/-- Keep-first deduplication against a set of already seen elements. -/
def dedupeGo (seen : List String) : List String → List String
  | [] => []
  | x :: xs =>
    if x ∈ seen then dedupeGo seen xs else x :: dedupeGo (seen ++ [x]) xs

/-- Modelled from the spec: `dedupe` is called by `BuildFileGraph` but its
definition is not under `src/`.  Per the spec, resolved paths are
"deduplicated, order = first appearance". -/
def dedupe (l : List String) : List String := dedupeGo [] l

/-- The suffix-indexing inner loop of `buildFileIndex`
(`for i := 1; i < len(parts); i++`). -/
def indexSuffixStep (path : String) (parts : List (List Char)) (idx : FileIndexM)
    (i : Nat) : FileIndexM :=
  if i = 0 then idx
  else
    let suffix : String := ⟨joinSlash (parts.drop i)⟩
    let idx := { idx with bySuffix := appendKey idx.bySuffix suffix path }
    let noExtSuf : String := ⟨trimSufL (extOf suffix).data suffix.data⟩
    { idx with bySuffix := appendKey idx.bySuffix noExtSuf path }

/-- The directory, exact and suffix indexing of one scanned path. -/
def indexCore (idx : FileIndexM) (path : String) : FileIndexM :=
  let d := dirOf path
  let dir := if d = "." then "" else d
  let idx := { idx with byDir := appendKey idx.byDir dir path }
  let idx := { idx with byExact := appendKey idx.byExact path path }
  let noExt : String := ⟨trimSufL (extOf path).data path.data⟩
  let idx := { idx with byExact := appendKey idx.byExact noExt path }
  let parts := splitSlash path.data
  (List.range parts.length).foldl (indexSuffixStep path parts) idx

/-- One step of the `buildFileIndex` loop: index a single scanned path. -/
def indexFile (goModule : String) (idx : FileIndexM) (path : String) : FileIndexM :=
  let idx := indexCore idx path
  if strHasSuf ".go" path && goModule ≠ "" then
    let d := dirOf path
    let dir := if d = "." then "" else d
    let pkgPath := if dir = "" then goModule else goModule ++ "/" ++ dir
    { idx with goPkgs := appendKey idx.goPkgs pkgPath path }
  else idx

/-- Go `buildFileIndex`: fold `indexFile` over the scanned files. -/
def buildFileIndex (files : List String) (goModule : String) : FileIndexM :=
  files.foldl (indexFile goModule) ⟨[], [], [], []⟩

/-- The `resolvedImports` accumulation of `BuildFileGraph` for one analysis. -/
def resolveAnalysis (idx : FileIndexM) (goModule : String) (a : AnalysisM) :
    List String :=
  a.imports.flatMap (fun imp => fuzzyResolve imp a.path idx goModule)

/-- One iteration of the `for _, a := range analyses` loop of `BuildFileGraph`:
store the deduplicated resolutions and populate the reverse map. -/
def addAnalysis (idx : FileIndexM) (goModule : String) (fg : FileGraphM)
    (a : AnalysisM) : FileGraphM :=
  let resolved := resolveAnalysis idx goModule a
  if resolved.isEmpty then fg
  else
    let d := dedupe resolved
    let fg := { fg with imports := setKey fg.imports a.path d }
    { fg with importers := d.foldl (fun m b => appendKey m b a.path) fg.importers }

/-- Go `BuildFileGraph`, shallowly embedded: the filesystem steps (`ScanFiles`,
`detectModule`, `ScanForDeps`) become the parameters `files`, `goModule` and
`analyses`; the remaining computation is translated verbatim. -/
def buildFileGraph (goModule : String) (files : List String)
    (analyses : List AnalysisM) : FileGraphM :=
  let idx := buildFileIndex files goModule
  analyses.foldl (addAnalysis idx goModule)
    { module := goModule, imports := [], importers := [], packages := idx.goPkgs }

/-- Go `FileGraph.IsHub`: a file with three or more importers. -/
def isHub (fg : FileGraphM) (path : String) : Bool :=
  decide (3 ≤ (lookupD fg.importers path).length)

/-- Go `FileGraph.HubFiles`: the keys of the importers map with three or more entries. -/
def hubFiles (fg : FileGraphM) : List String :=
  (fg.importers.filter (fun q => decide (3 ≤ q.2.length))).map Prod.fst

/-! ## Data model (watch package) -/

/-- The operation tags assigned by `handleEvent`. -/
inductive Op where
  | CREATE
  | WRITE
  | REMOVE
  | RENAME
  deriving DecidableEq, Repr

/-- Go `watch.Event` (the fields the graph logic computes; `Language`, `Dirty` and
the enrichment counters are derived decorations not touched by any claim).
`time` is in integer nanoseconds. -/
structure EventM where
  time : Int
  op : Op
  path : String
  lines : Int
  delta : Int
  sizeDelta : Int
  deriving DecidableEq, Repr

/-- Go `watch.FileState`: the per-path line/size cache for delta computation. -/
structure FileStateM where
  lines : Int
  size : Int
  deriving DecidableEq, Repr

/-- The dynamic fields of `watch.Graph` that the event loop mutates.
`files` models the key set of the `Files` map. -/
structure GraphM where
  files : List String
  fileGraph : Option FileGraphM
  state : List (String × FileStateM)
  events : List EventM
  deriving DecidableEq, Repr

/-- Go `watch.State`: the snapshot serialized to `.codemap/state.json`. -/
structure StateSnap where
  updatedAt : Int
  fileCount : Nat
  hubs : List String
  importers : List (String × List String)
  imports : List (String × List String)
  recentEvents : List EventM
  deriving DecidableEq, Repr

/-- The graph held by a fresh daemon (`NewDaemon`): empty maps, no file graph. -/
def emptyGraph : GraphM := { files := [], fileGraph := none, state := [], events := [] }

/-- Membership insert for the key set of a Go map (`m[k] = v` on `Files`). -/
def insertPath (l : List String) (p : String) : List String :=
  if l.contains p then l else l ++ [p]

/-- Go `handleEvent` for a regular file that could be stat-ed (the directory and
stat-failure early returns append nothing): compute the event from the cached
`FileState`, update the cache and the file set, append the event. -/
def applyEvent (g : GraphM) (op : Op) (path : String) (newLines newSize : Int)
    (t : Int) : GraphM :=
  match op with
  | .CREATE | .WRITE =>
    let ds : Int × Int :=
      match lookup? g.state path with
      | some prev => (newLines - prev.lines, newSize - prev.size)
      | none => (newLines, newSize)
    { g with
      state := setKey g.state path { lines := newLines, size := newSize }
      files := insertPath g.files path
      events := g.events ++
        [{ time := t, op := op, path := path, lines := newLines,
           delta := ds.1, sizeDelta := ds.2 }] }
  | .REMOVE | .RENAME =>
    let lds : Int × Int :=
      match lookup? g.state path with
      | some prev => (-prev.lines, -prev.size)
      | none => (0, 0)
    { g with
      state := removeKey g.state path
      files := g.files.filter (· ≠ path)
      events := g.events ++
        [{ time := t, op := op, path := path, lines := 0,
           delta := lds.1, sizeDelta := lds.2 }] }

/-- Go `fullScan`: replace the `Files` key set and rebuild the line/size cache,
caching only files whose line count is positive; the event buffer is untouched.
The scan input is a list of `(path, lines, size)` tuples. -/
def fullScanG (scan : List (String × Int × Int)) (g : GraphM) : GraphM :=
  { g with
    files := scan.map Prod.fst
    state := scan.foldl
      (fun st e => if 0 < e.2.1 then setKey st e.1 { lines := e.2.1, size := e.2.2 } else st)
      [] }

/-- The `events[len(events)-50:]` tail selection of `writeState`. -/
def lastN (n : Nat) (l : List EventM) : List EventM :=
  if n < l.length then l.drop (l.length - n) else l

/-- Go `writeState`: `none` models the early return when no file graph was
computed (nothing is written); otherwise the serialized snapshot value. -/
def writeStateM (now : Int) (g : GraphM) : Option StateSnap :=
  match g.fileGraph with
  | none => none
  | some fg =>
    some { updatedAt := now, fileCount := g.files.length, hubs := hubFiles fg,
           importers := fg.importers, imports := fg.imports,
           recentEvents := lastN 50 g.events }

/-- The 30-second freshness threshold of `ReadState`, in nanoseconds. -/
def staleNs : Int := 30 * 1000000000

/-- Go `ReadState`: `disk` is the outcome of reading and unmarshalling
`state.json` (`none` = file unreadable, `some none` = unparseable,
`some (some st)` = parsed).  A parsed snapshot older than 30 seconds is
discarded. -/
def readStateM (disk : Option (Option StateSnap)) (now : Int) : Option StateSnap :=
  match disk with
  | none => none
  | some none => none
  | some (some st) => if staleNs < now - st.updatedAt then none else some st

/-- An incoming filesystem event as seen by `eventLoop`: the arrival clock
reading, the path (`event.Name`), and whether it passes the source-file /
directory-create filter that precedes the debounce check. -/
structure REvent where
  time : Int
  name : String
  keep : Bool
  deriving DecidableEq, Repr

/-- The debounce window of `eventLoop`, in nanoseconds. -/
def debounceWindowNs : Int := 100 * 1000000

/-- The `eventLoop` debounce: returns the events handed to `handleEvent`,
threading the per-path last-processed-time map exactly as the source does
(the map is updated only for events that are not discarded). -/
def processEvents (db : List (String × Int)) : List REvent → List REvent
  | [] => []
  | e :: rest =>
    if e.keep then
      match lookup? db e.name with
      | some last =>
        if e.time - last < debounceWindowNs then processEvents db rest
        else e :: processEvents (setKey db e.name e.time) rest
      | none => e :: processEvents (setKey db e.name e.time) rest
    else processEvents db rest

/-! ## Spec-side definitions

These follow the wording of the specification and of the claims, for
comparison against the source-derived definitions above. -/

/-- The first non-empty list among the given candidates, `[]` if none. -/
def firstNonEmpty : List (List String) → List String
  | [] => []
  | l :: ls => if l.isEmpty then firstNonEmpty ls else l

/-- The resolution algorithm as the spec words it: attempt the four strategies
in order (module match, relative match, exact match, suffix match) and return
the result of the first strategy that yields a non-empty set of files. -/
def fuzzyResolveSpec (imp fromFile : String) (idx : FileIndexM) (goModule : String) :
    List String :=
  let d := dirOf fromFile
  let fromDir := if d = "." then "" else d
  let normalized := normalizeImport imp
  firstNonEmpty
    [ (if goModule ≠ "" && strHasPre goModule imp then lookupD idx.goPkgs imp else []),
      (if strHasPre "." imp then resolveRelative imp fromDir idx else []),
      tryExactMatch normalized idx,
      trySuffixMatch normalized idx ]

/-- Normalization as the claim words it: for a string starting with `super::`
the prefix is dropped and `::` replaced, exactly like `crate::`. -/
def normalizeImportSpec (imp : String) : String :=
  let s0 := trimQuotesL imp.data
  let s1 := if s0.contains '.' && !(s0.contains '/') && !(hasPreL ['.'] s0)
              then replaceDotSlash s0 else s0
  let s2 := if hasPreL "crate::".data s1
              then replaceColons (trimPreL "crate::".data s1) else s1
  if hasPreL "super::".data s2
    then ⟨replaceColons (trimPreL "super::".data s2)⟩ else ⟨s2⟩

/-- The most recent CREATE or WRITE event for `p` in a buffer prefix. -/
def lastCW (evs : List EventM) (p : String) : Option EventM :=
  (evs.filter (fun e =>
    decide (e.path = p ∧ (e.op = Op.CREATE ∨ e.op = Op.WRITE)))).getLast?

/-- The delta the claim prescribes for an event, given the buffer before it:
`lines - prev.lines` against the most recent prior CREATE/WRITE for the same
path, or `lines` when there is none. -/
def deltaPerClaim (prior : List EventM) (e : EventM) : Int :=
  match lastCW prior e.path with
  | some prev => e.lines - prev.lines
  | none => e.lines

/-- The claimed buffer invariant: the delta of every CREATE/WRITE event is computed
against the most recent prior CREATE/WRITE event for the same path in the
buffer. -/
def claimDeltaProp (evs : List EventM) : Prop :=
  ∀ i, ∀ h : i < evs.length,
    ((evs.get ⟨i, h⟩).op = Op.CREATE ∨ (evs.get ⟨i, h⟩).op = Op.WRITE) →
    (evs.get ⟨i, h⟩).delta = deltaPerClaim (evs.take i) (evs.get ⟨i, h⟩)

/-- The two-directional-map property of the file graph. -/
def RevMap (fg : FileGraphM) : Prop :=
  ∀ a b : String, b ∈ lookupD fg.imports a ↔ a ∈ lookupD fg.importers b

/-- A path not yet present in the graph: no imports entry, and not recorded
as an importer anywhere. -/
def Untouched (fg : FileGraphM) (p : String) : Prop :=
  lookup? fg.imports p = none ∧ ∀ q ∈ fg.importers, p ∉ q.2

/-! ## Concrete instances used by counterexamples and witnesses -/

/-- A repository with a single Python file whose raw import resolves to the
file itself (a legal Python self-import). -/
def selfAnalyses : List AnalysisM := [{ path := "foo.py", imports := ["foo"] }]

/-- The graph built from the self-importing repository. -/
def selfGraph : FileGraphM := buildFileGraph "" ["foo.py"] selfAnalyses

/-- The index over a repository containing a single dot-file module. -/
def dotIdx : FileIndexM := buildFileIndex [".foo.py"] ""

/-- A repository where file `a.py` has only an unresolvable import while
`b.py` imports `a`. -/
def unresolvedAnalyses : List AnalysisM :=
  [{ path := "a.py", imports := ["zzz"] }, { path := "b.py", imports := ["a"] }]

/-- The graph built from the unresolved-import repository. -/
def unresolvedGraph : FileGraphM := buildFileGraph "" ["a.py", "b.py"] unresolvedAnalyses

/-- A daemon graph after the initial full scan found a three-line `x.go`
(state cache seeded, event buffer empty). -/
def scannedGraph : GraphM := fullScanG [("x.go", 3, 10)] emptyGraph

/-- The daemon graph after the first WRITE to `x.go` (now five lines). -/
def writtenGraph : GraphM := applyEvent scannedGraph Op.WRITE "x.go" 5 12 0

/-- A daemon whose dependency computation failed (`FileGraph` nil) after one
event was appended: `computeDeps` is best-effort and leaves `fileGraph` empty. -/
def noDepsGraph : GraphM := applyEvent (fullScanG [("a.go", 2, 5)] emptyGraph) Op.WRITE "a.go" 3 6 0

/-- An importers map making `t.go` a hub. -/
def hubGraph : FileGraphM :=
  { module := "", imports := [],
    importers := [("t.go", ["a.go", "b.go", "c.go"]), ("u.go", ["a.go"])],
    packages := [] }

/-- A parsed snapshot with a fixed update timestamp, for the freshness gate. -/
def snapAt (t : Int) : StateSnap :=
  { updatedAt := t, fileCount := 1, hubs := [], importers := [], imports := [],
    recentEvents := [] }

/-- A small dependency graph for a daemon whose deps computation succeeded. -/
def depsFG : FileGraphM :=
  { module := "", imports := [("a.go", ["b.go"])], importers := [("b.go", ["a.go"])],
    packages := [] }

/-- A daemon graph holding `depsFG` and one buffered event. -/
def depsGraph : GraphM :=
  { files := ["a.go", "b.go"], fileGraph := some depsFG, state := [],
    events := [{ time := 0, op := Op.WRITE, path := "a.go", lines := 3, delta := 1,
                 sizeDelta := 2 }] }

/-! ## Lemmas about the association-list model of Go maps -/

theorem lookup?_setKey_eq {α : Type} (m : List (String × α)) (k : String) (v : α) :
    lookup? (setKey m k v) k = some v := by
  induction m with
  | nil => simp [setKey, lookup?]
  | cons q rest ih =>
    obtain ⟨k0, v0⟩ := q
    by_cases h : k0 = k
    · subst h
      simp [setKey, lookup?]
    · simp [setKey, lookup?, h, ih]

theorem lookup?_setKey_ne {α : Type} (m : List (String × α)) (k k2 : String) (v : α)
    (h : k2 ≠ k) : lookup? (setKey m k v) k2 = lookup? m k2 := by
  induction m with
  | nil => simp [setKey, lookup?, Ne.symm h]
  | cons q rest ih =>
    obtain ⟨k0, v0⟩ := q
    by_cases h0 : k0 = k
    · subst h0
      simp [setKey, lookup?, Ne.symm h]
    · by_cases h2 : k0 = k2
      · subst h2
        simp [setKey, lookup?, h0]
      · simp [setKey, lookup?, h0, h2, ih]

theorem mem_setKey {α : Type} {m : List (String × α)} {k : String} {v : α}
    {q : String × α} (hq : q ∈ setKey m k v) : q ∈ m ∨ q = (k, v) := by
  induction m with
  | nil =>
    simp [setKey] at hq
    exact Or.inr hq
  | cons p rest ih =>
    obtain ⟨k0, v0⟩ := p
    by_cases h : k0 = k
    · subst h
      simp [setKey] at hq
      rcases hq with h1 | h1
      · exact Or.inr h1
      · exact Or.inl (List.mem_cons_of_mem _ h1)
    · simp [setKey, h] at hq
      rcases hq with h1 | h1
      · exact Or.inl (by simp [h1])
      · rcases ih h1 with h2 | h2
        · exact Or.inl (List.mem_cons_of_mem _ h2)
        · exact Or.inr h2

theorem keys_setKey {α : Type} (m : List (String × α)) (k p : String) (v : α) :
    p ∈ (setKey m k v).map Prod.fst ↔ p ∈ m.map Prod.fst ∨ p = k := by
  induction m with
  | nil => simp [setKey]
  | cons q rest ih =>
    obtain ⟨k0, v0⟩ := q
    by_cases h : k0 = k
    · subst h
      simp [setKey]
      tauto
    · simp [setKey, h, ih]
      tauto

theorem lookup?_mem {α : Type} {m : List (String × α)} {k : String} {v : α}
    (h : lookup? m k = some v) : (k, v) ∈ m := by
  induction m with
  | nil => simp [lookup?] at h
  | cons q rest ih =>
    obtain ⟨k0, v0⟩ := q
    by_cases h0 : k0 = k
    · subst h0
      simp [lookup?] at h
      simp [h]
    · simp [lookup?, h0] at h
      exact List.mem_cons_of_mem _ (ih h)

theorem lookup?_of_mem_nodup {α : Type} {m : List (String × α)} {k : String} {v : α}
    (hn : (m.map Prod.fst).Nodup) (h : (k, v) ∈ m) : lookup? m k = some v := by
  induction m with
  | nil => simp at h
  | cons q rest ih =>
    obtain ⟨k0, v0⟩ := q
    rw [List.map_cons] at hn
    obtain ⟨hk0notin, hn2⟩ := List.nodup_cons.mp hn
    rcases List.mem_cons.mp h with h1 | h1
    · obtain ⟨hk, hv⟩ := Prod.mk.injEq .. ▸ h1.symm
      subst hk
      subst hv
      simp [lookup?]
    · have hk0 : k0 ≠ k := by
        intro he
        subst he
        exact hk0notin (List.mem_map.mpr ⟨(k0, v), h1, rfl⟩)
      simp [lookup?, hk0]
      exact ih hn2 h1

theorem notMem_lookupD {m : List (String × List String)} {x : String}
    (h : ∀ q ∈ m, x ∉ q.2) (k : String) : x ∉ lookupD m k := by
  unfold lookupD
  cases hl : lookup? m k with
  | none => simp
  | some v => simpa using h _ (lookup?_mem hl)

theorem lookupD_appendKey (m : List (String × List String)) (k p b : String) :
    lookupD (appendKey m b p) k = if k = b then lookupD m k ++ [p] else lookupD m k := by
  unfold appendKey
  by_cases h : k = b
  · subst h
    simp [lookupD, lookup?_setKey_eq]
  · simp [h, lookupD, lookup?_setKey_ne _ _ _ _ h]

/-- Membership in the importers map after the reverse-map population loop of
`BuildFileGraph`: `x` is recorded under `k` exactly when it was there before,
or `x` is the newly inserted importer and `k` one of the resolved targets. -/
theorem lookupD_appendFold (D : List String) (m : List (String × List String))
    (p k x : String) :
    x ∈ lookupD (D.foldl (fun m2 b => appendKey m2 b p) m) k ↔
      x ∈ lookupD m k ∨ (x = p ∧ k ∈ D) := by
  induction D generalizing m with
  | nil => simp
  | cons d D ih =>
    rw [List.foldl_cons, ih, lookupD_appendKey]
    by_cases h : k = d
    · subst h
      simp
      tauto
    · simp [h]

/-- The reverse-map population loop only ever appends non-empty values. -/
theorem appendFold_nonempty (D : List String) (m : List (String × List String))
    (p : String) (h : ∀ q ∈ m, q.2 ≠ []) :
    ∀ q ∈ D.foldl (fun m2 b => appendKey m2 b p) m, q.2 ≠ [] := by
  induction D generalizing m with
  | nil => exact h
  | cons d D ih =>
    rw [List.foldl_cons]
    refine ih _ ?_
    intro q hq
    rcases mem_setKey hq with h1 | h1
    · exact h q h1
    · simp [h1]

/-- The reverse-map population loop records no importer other than `p`. -/
theorem appendFold_no_other (D : List String) (m : List (String × List String))
    (p x : String) (hm : ∀ q ∈ m, x ∉ q.2) (hx : x ≠ p) :
    ∀ q ∈ D.foldl (fun m2 b => appendKey m2 b p) m, x ∉ q.2 := by
  induction D generalizing m with
  | nil => exact hm
  | cons d D ih =>
    rw [List.foldl_cons]
    refine ih _ ?_
    intro q hq
    rcases mem_setKey hq with h1 | h1
    · exact hm q h1
    · rw [h1]
      simp [hx]
      exact notMem_lookupD hm d

/-- Deduplication of a non-empty list is non-empty. -/
theorem dedupe_ne_nil {l : List String} (h : l ≠ []) : dedupe l ≠ [] := by
  cases l with
  | nil => exact absurd rfl h
  | cons x xs => simp [dedupe, dedupeGo]

/-- One `BuildFileGraph` loop iteration preserves the reverse-map property,
provided the inserted path is new to the graph. -/
theorem addAnalysis_revMap (idx : FileIndexM) (gm : String) (fg : FileGraphM)
    (a : AnalysisM) (hinv : RevMap fg) (hu : Untouched fg a.path) :
    RevMap (addAnalysis idx gm fg a) := by
  unfold addAnalysis
  by_cases hres : (resolveAnalysis idx gm a).isEmpty
  · simpa [hres] using hinv
  · simp only [hres, Bool.false_eq_true, if_false]
    intro x b
    simp only
    rw [lookupD_appendFold]
    by_cases hx : x = a.path
    · subst hx
      have himp : lookupD (setKey fg.imports a.path (dedupe (resolveAnalysis idx gm a))) a.path
          = dedupe (resolveAnalysis idx gm a) := by
        simp [lookupD, lookup?_setKey_eq]
      rw [himp]
      have hnotin : a.path ∉ lookupD fg.importers b := notMem_lookupD hu.2 b
      constructor
      · intro hb
        exact Or.inr ⟨rfl, hb⟩
      · intro hb
        rcases hb with h1 | h1
        · exact absurd h1 hnotin
        · exact h1.2
    · have himp : lookupD (setKey fg.imports a.path (dedupe (resolveAnalysis idx gm a))) x
          = lookupD fg.imports x := by
        simp [lookupD, lookup?_setKey_ne _ _ _ _ hx]
      rw [himp, hinv x b]
      constructor
      · exact Or.inl
      · intro hb
        rcases hb with h1 | h1
        · exact h1
        · exact absurd h1.1 hx

/-- One `BuildFileGraph` loop iteration leaves other paths untouched. -/
theorem addAnalysis_untouched (idx : FileIndexM) (gm : String) (fg : FileGraphM)
    (a : AnalysisM) (p : String) (hu : Untouched fg p) (hne : p ≠ a.path) :
    Untouched (addAnalysis idx gm fg a) p := by
  unfold addAnalysis
  by_cases hres : (resolveAnalysis idx gm a).isEmpty
  · simpa [hres] using hu
  · simp only [hres, Bool.false_eq_true, if_false]
    constructor
    · simp only
      rw [lookup?_setKey_ne _ _ _ _ hne]
      exact hu.1
    · simp only
      exact appendFold_no_other _ _ _ _ hu.2 hne

/-- The `BuildFileGraph` analysis loop preserves the reverse-map property when
all pending analysis paths are fresh and pairwise distinct. -/
theorem foldl_revMap (idx : FileIndexM) (gm : String) :
    ∀ (analyses : List AnalysisM) (fg : FileGraphM),
      (analyses.map AnalysisM.path).Nodup →
      (∀ x ∈ analyses, Untouched fg x.path) →
      RevMap fg →
      RevMap (analyses.foldl (addAnalysis idx gm) fg) := by
  intro analyses
  induction analyses with
  | nil => exact fun fg _ _ h => h
  | cons a rest ih =>
    intro fg hnd hu hinv
    rw [List.map_cons] at hnd
    obtain ⟨hnotin, hnd2⟩ := List.nodup_cons.mp hnd
    rw [List.foldl_cons]
    refine ih _ hnd2 ?_ (addAnalysis_revMap idx gm fg a hinv (hu a (List.mem_cons_self a rest)))
    intro x hx
    refine addAnalysis_untouched idx gm fg a x.path (hu x (List.mem_cons_of_mem a hx)) ?_
    intro he
    exact hnotin (he ▸ List.mem_map.mpr ⟨x, hx, rfl⟩)

/-- The imports map written by one `BuildFileGraph` loop iteration. -/
theorem addAnalysis_imports (idx : FileIndexM) (gm : String) (fg : FileGraphM)
    (a : AnalysisM) :
    (addAnalysis idx gm fg a).imports =
      if (resolveAnalysis idx gm a).isEmpty then fg.imports
      else setKey fg.imports a.path (dedupe (resolveAnalysis idx gm a)) := by
  unfold addAnalysis
  by_cases h : (resolveAnalysis idx gm a).isEmpty <;> simp [h]

/-- The importers map written by one `BuildFileGraph` loop iteration. -/
theorem addAnalysis_importers (idx : FileIndexM) (gm : String) (fg : FileGraphM)
    (a : AnalysisM) :
    (addAnalysis idx gm fg a).importers =
      if (resolveAnalysis idx gm a).isEmpty then fg.importers
      else (dedupe (resolveAnalysis idx gm a)).foldl
        (fun m b => appendKey m b a.path) fg.importers := by
  unfold addAnalysis
  by_cases h : (resolveAnalysis idx gm a).isEmpty <;> simp [h]

/-- Analyses with other paths never touch the imports entry of `p`. -/
theorem lookup?_imports_foldl_of_ne (idx : FileIndexM) (gm : String) :
    ∀ (analyses : List AnalysisM) (fg : FileGraphM) (p : String),
      (∀ x ∈ analyses, x.path ≠ p) →
      lookup? (analyses.foldl (addAnalysis idx gm) fg).imports p = lookup? fg.imports p := by
  intro analyses
  induction analyses with
  | nil => intro fg p _; rfl
  | cons a rest ih =>
    intro fg p hne
    rw [List.foldl_cons, ih _ p (fun x hx => hne x (List.mem_cons_of_mem a hx))]
    rw [addAnalysis_imports]
    by_cases h : (resolveAnalysis idx gm a).isEmpty
    · simp [h]
    · simp only [h, Bool.false_eq_true, if_false]
      exact lookup?_setKey_ne _ _ _ _ (Ne.symm (hne a (List.mem_cons_self a rest)))

/-- The imports entry a processed analysis ends up with: the in-order
deduplication of all its resolved raw imports. -/
theorem foldl_imports_value (idx : FileIndexM) (gm : String) :
    ∀ (analyses : List AnalysisM) (fg : FileGraphM) (a : AnalysisM),
      (analyses.map AnalysisM.path).Nodup → a ∈ analyses →
      resolveAnalysis idx gm a ≠ [] →
      lookupD (analyses.foldl (addAnalysis idx gm) fg).imports a.path
        = dedupe (resolveAnalysis idx gm a) := by
  intro analyses
  induction analyses with
  | nil => intro fg a _ ha; simp at ha
  | cons x rest ih =>
    intro fg a hnd ha hne
    rw [List.map_cons] at hnd
    obtain ⟨hnotin, hnd2⟩ := List.nodup_cons.mp hnd
    rcases List.mem_cons.mp ha with h1 | h1
    · subst h1
      rw [List.foldl_cons]
      have hpaths : ∀ y ∈ rest, y.path ≠ a.path := by
        intro y hy he
        exact hnotin (he ▸ List.mem_map.mpr ⟨y, hy, rfl⟩)
      rw [lookupD, lookup?_imports_foldl_of_ne idx gm rest _ a.path hpaths]
      rw [addAnalysis_imports]
      have hemp : (resolveAnalysis idx gm a).isEmpty = false := by
        simpa [List.isEmpty_iff] using hne
      simp [hemp, lookup?_setKey_eq]
    · rw [List.foldl_cons]
      exact ih _ a hnd2 h1 hne

/-- Every list stored in the imports map is non-empty. -/
theorem foldl_imports_nonempty (idx : FileIndexM) (gm : String) :
    ∀ (analyses : List AnalysisM) (fg : FileGraphM),
      (∀ q ∈ fg.imports, q.2 ≠ []) →
      ∀ q ∈ (analyses.foldl (addAnalysis idx gm) fg).imports, q.2 ≠ [] := by
  intro analyses
  induction analyses with
  | nil => exact fun fg h => h
  | cons a rest ih =>
    intro fg h
    rw [List.foldl_cons]
    refine ih _ ?_
    rw [addAnalysis_imports]
    by_cases he : (resolveAnalysis idx gm a).isEmpty
    · simpa [he] using h
    · simp only [he, Bool.false_eq_true, if_false]
      intro q hq
      rcases mem_setKey hq with h1 | h1
      · exact h q h1
      · rw [h1]
        exact dedupe_ne_nil (by simpa [List.isEmpty_iff] using he)

/-- Every list stored in the importers map is non-empty. -/
theorem foldl_importers_nonempty (idx : FileIndexM) (gm : String) :
    ∀ (analyses : List AnalysisM) (fg : FileGraphM),
      (∀ q ∈ fg.importers, q.2 ≠ []) →
      ∀ q ∈ (analyses.foldl (addAnalysis idx gm) fg).importers, q.2 ≠ [] := by
  intro analyses
  induction analyses with
  | nil => exact fun fg h => h
  | cons a rest ih =>
    intro fg h
    rw [List.foldl_cons]
    refine ih _ ?_
    rw [addAnalysis_importers]
    by_cases he : (resolveAnalysis idx gm a).isEmpty
    · simpa [he] using h
    · simp only [he, Bool.false_eq_true, if_false]
      exact appendFold_nonempty _ _ _ h

/-- A path is a key of the imports map exactly when some processed analysis
with that path had at least one resolvable raw import. -/
theorem keys_imports_foldl (idx : FileIndexM) (gm : String) :
    ∀ (analyses : List AnalysisM) (fg : FileGraphM) (p : String),
      p ∈ (analyses.foldl (addAnalysis idx gm) fg).imports.map Prod.fst ↔
        p ∈ fg.imports.map Prod.fst ∨
          ∃ a ∈ analyses, a.path = p ∧ resolveAnalysis idx gm a ≠ [] := by
  intro analyses
  induction analyses with
  | nil => intro fg p; simp
  | cons a rest ih =>
    intro fg p
    rw [List.foldl_cons, ih, addAnalysis_imports]
    by_cases he : (resolveAnalysis idx gm a).isEmpty
    · have hnil : resolveAnalysis idx gm a = [] := by simpa [List.isEmpty_iff] using he
      simp only [he, if_true]
      constructor
      · intro h
        rcases h with h | h
        · exact Or.inl h
        · exact Or.inr (by obtain ⟨y, hy, h2⟩ := h; exact ⟨y, List.mem_cons_of_mem a hy, h2⟩)
      · intro h
        rcases h with h | ⟨y, hy, h2, h3⟩
        · exact Or.inl h
        · rcases List.mem_cons.mp hy with h4 | h4
          · exact absurd (h4 ▸ hnil) h3
          · exact Or.inr ⟨y, h4, h2, h3⟩
    · have hnil : resolveAnalysis idx gm a ≠ [] := by simpa [List.isEmpty_iff] using he
      simp only [he, Bool.false_eq_true, if_false]
      rw [keys_setKey]
      constructor
      · intro h
        rcases h with (h | h) | h
        · exact Or.inl h
        · exact Or.inr ⟨a, List.mem_cons_self a rest, h.symm, hnil⟩
        · obtain ⟨y, hy, h2⟩ := h
          exact Or.inr ⟨y, List.mem_cons_of_mem a hy, h2⟩
      · intro h
        rcases h with h | ⟨y, hy, h2, h3⟩
        · exact Or.inl (Or.inl h)
        · rcases List.mem_cons.mp hy with h4 | h4
          · exact Or.inl (Or.inr (by rw [← h2, h4]))
          · exact Or.inr ⟨y, h4, h2, h3⟩

/-- A fold whose steps never change the Go-package table leaves it unchanged. -/
theorem goPkgs_foldl_const {β : Type} (f : FileIndexM → β → FileIndexM)
    (hf : ∀ idx b, (f idx b).goPkgs = idx.goPkgs) :
    ∀ (l : List β) (idx : FileIndexM), (l.foldl f idx).goPkgs = idx.goPkgs := by
  intro l
  induction l with
  | nil => intro idx; rfl
  | cons b rest ih =>
    intro idx
    rw [List.foldl_cons, ih, hf]

/-- One suffix-indexing step does not touch the Go-package table. -/
theorem goPkgs_indexSuffixStep (path : String) (parts : List (List Char))
    (idx : FileIndexM) (i : Nat) :
    (indexSuffixStep path parts idx i).goPkgs = idx.goPkgs := by
  unfold indexSuffixStep
  by_cases h : i = 0 <;> simp [h]

/-- The core indexing of one file does not touch the Go-package table. -/
theorem goPkgs_indexCore (idx : FileIndexM) (p : String) :
    (indexCore idx p).goPkgs = idx.goPkgs := by
  unfold indexCore
  exact goPkgs_foldl_const _ (goPkgs_indexSuffixStep p _) _ _

/-- Indexing one file either leaves the Go-package table unchanged or appends
the file under one package key. -/
theorem goPkgs_indexFile (gm : String) (idx : FileIndexM) (p : String) :
    (indexFile gm idx p).goPkgs = idx.goPkgs ∨
      ∃ k, (indexFile gm idx p).goPkgs = appendKey idx.goPkgs k p := by
  unfold indexFile
  by_cases hgo : (strHasSuf ".go" p && decide (gm ≠ "")) = true
  · simp only [hgo, if_true]
    right
    exact ⟨_, by rw [goPkgs_indexCore]⟩
  · simp only [hgo, if_false]
    left
    exact goPkgs_indexCore idx p

/-- Every list stored in the Go-package table of a built index is non-empty. -/
theorem goPkgs_buildFileIndex_nonempty (files : List String) (gm : String) :
    ∀ q ∈ (buildFileIndex files gm).goPkgs, q.2 ≠ [] := by
  unfold buildFileIndex
  suffices h : ∀ (l : List String) (idx : FileIndexM),
      (∀ q ∈ idx.goPkgs, q.2 ≠ []) →
      ∀ q ∈ (l.foldl (indexFile gm) idx).goPkgs, q.2 ≠ [] by
    exact h files ⟨[], [], [], []⟩ (by simp)
  intro l
  induction l with
  | nil => exact fun idx h => h
  | cons p rest ih =>
    intro idx h
    rw [List.foldl_cons]
    refine ih _ ?_
    rcases goPkgs_indexFile gm idx p with h1 | ⟨k, h1⟩
    · rw [h1]; exact h
    · rw [h1]
      intro q hq
      rcases mem_setKey hq with h2 | h2
      · exact h q h2
      · simp [h2]

/-- Once the debounce table records time `last` for a path, every later event
processed for that path is at least one debounce window after `last`. -/
theorem processEvents_after :
    ∀ (evs : List REvent) (db : List (String × Int)) (p : String) (last : Int),
      lookup? db p = some last →
      ∀ o ∈ processEvents db evs, o.name = p → last + debounceWindowNs ≤ o.time := by
  intro evs
  induction evs with
  | nil =>
    intro db p last _ o ho
    simp [processEvents] at ho
  | cons e rest ih =>
    intro db p last hlast o ho hop
    have hW : (0 : Int) ≤ debounceWindowNs := by norm_num [debounceWindowNs]
    by_cases hk : e.keep
    · cases hl : lookup? db e.name with
      | some l2 =>
        by_cases ht : e.time - l2 < debounceWindowNs
        · rw [processEvents] at ho
          simp only [hk, if_true, hl, ht] at ho
          exact ih db p last hlast o ho hop
        · rw [processEvents] at ho
          simp only [hk, if_true, hl, ht, if_false] at ho
          rcases List.mem_cons.mp ho with h1 | h1
          · subst h1
            have hpe : lookup? db o.name = some last := hop ▸ hlast
            rw [hl] at hpe
            obtain hl2 : l2 = last := Option.some.inj hpe
            omega
          · by_cases hnp : e.name = p
            · have h2 : lookup? (setKey db e.name e.time) p = some e.time := by
                rw [← hnp]
                exact lookup?_setKey_eq db e.name e.time
              have h3 := ih _ p e.time h2 o h1 hop
              have hpe : lookup? db p = some last := hlast
              rw [← hnp, hl] at hpe
              obtain hl2 : l2 = last := Option.some.inj hpe
              omega
            · have h2 : lookup? (setKey db e.name e.time) p = some last := by
                rw [lookup?_setKey_ne _ _ _ _ (fun h => hnp h.symm)]
                exact hlast
              exact ih _ p last h2 o h1 hop
      | none =>
        rw [processEvents] at ho
        simp only [hk, if_true, hl] at ho
        rcases List.mem_cons.mp ho with h1 | h1
        · subst h1
          have hpe : lookup? db o.name = some last := hop ▸ hlast
          rw [hl] at hpe
          exact absurd hpe (by simp)
        · by_cases hnp : e.name = p
          · rw [hnp] at hl
            rw [hl] at hlast
            exact absurd hlast (by simp)
          · have h2 : lookup? (setKey db e.name e.time) p = some last := by
              rw [lookup?_setKey_ne _ _ _ _ (fun h => hnp h.symm)]
              exact hlast
            exact ih _ p last h2 o h1 hop
    · rw [processEvents] at ho
      simp only [hk, if_false] at ho
      exact ih db p last hlast o ho hop

/-- The debounce loop output is pairwise spaced: same-path processed events
are at least one debounce window apart. -/
theorem processEvents_spacing :
    ∀ (evs : List REvent) (db : List (String × Int)),
      List.Pairwise (fun a b => a.name = b.name → a.time + debounceWindowNs ≤ b.time)
        (processEvents db evs) := by
  intro evs
  induction evs with
  | nil => intro db; simp [processEvents]
  | cons e rest ih =>
    intro db
    by_cases hk : e.keep
    · cases hl : lookup? db e.name with
      | some l2 =>
        by_cases ht : e.time - l2 < debounceWindowNs
        · rw [processEvents]
          simp only [hk, if_true, hl, ht]
          exact ih db
        · rw [processEvents]
          simp only [hk, if_true, hl, ht, if_false]
          refine List.Pairwise.cons ?_ (ih _)
          intro o ho hop
          exact processEvents_after rest (setKey db e.name e.time) e.name e.time
            (lookup?_setKey_eq db e.name e.time) o ho hop.symm
      | none =>
        rw [processEvents]
        simp only [hk, if_true, hl]
        refine List.Pairwise.cons ?_ (ih _)
        intro o ho hop
        exact processEvents_after rest (setKey db e.name e.time) e.name e.time
          (lookup?_setKey_eq db e.name e.time) o ho hop.symm
    · rw [processEvents]
      simp only [hk, if_false]
      exact ih db

/-! ## Lemmas about import-string normalization -/

theorem hasPreL_iff (pre : List Char) :
    ∀ s, hasPreL pre s = true ↔ ∃ t, s = pre ++ t := by
  induction pre with
  | nil =>
    intro s
    simp [hasPreL]
  | cons p ps ih =>
    intro s
    cases s with
    | nil => simp [hasPreL]
    | cons c cs =>
      simp only [hasPreL, Bool.and_eq_true, beq_iff_eq, ih]
      constructor
      · rintro ⟨h1, t, h2⟩
        subst h1
        subst h2
        exact ⟨t, rfl⟩
      · rintro ⟨t, h⟩
        injection h with h1 h2
        exact ⟨h1.symm, t, h2⟩

theorem dropWhileQ_cons (c : Char) (l : List Char) (h : quoteChars.contains c = true) :
    (c :: l).dropWhile (quoteChars.contains ·) = l.dropWhile (quoteChars.contains ·) := by
  rw [List.dropWhile_cons]
  exact if_pos h

/-- Wrapping a string in one more layer of quotes does not change its trim. -/
theorem trimQuotesL_wrap (c : Char) (hc : c ∈ quoteChars) (s : List Char) :
    trimQuotesL (c :: s ++ [c]) = trimQuotesL s := by
  have hq : quoteChars.contains c = true := by
    simp [List.contains, List.elem_iff, hc]
  unfold trimQuotesL
  rw [show (c :: s ++ [c] : List Char) = c :: (s ++ [c]) from rfl]
  rw [dropWhileQ_cons _ _ hq]
  rw [List.dropWhile_append]
  by_cases h : (List.dropWhile (quoteChars.contains ·) s).isEmpty = true
  · rw [if_pos h]
    have h2 : List.dropWhile (quoteChars.contains ·) s = [] := by
      simpa [List.isEmpty_iff] using h
    have hl : List.dropWhile (quoteChars.contains ·) [c] = [] :=
      (dropWhileQ_cons c [] hq).trans rfl
    rw [hl, h2]
  · rw [if_neg h]
    rw [List.reverse_append]
    simp only [List.reverse_cons, List.reverse_nil, List.nil_append, List.singleton_append]
    rw [dropWhileQ_cons _ _ hq]

theorem hasDoubleColon_cons_ne {c : Char} (hc : ¬ c = ':') (l : List Char) :
    hasDoubleColon (c :: l) = hasDoubleColon l := by
  cases l with
  | nil => rfl
  | cons d ds => simp [hasDoubleColon, hc]

/-- When its head is not a colon, `replaceColons` keeps the head. -/
theorem replaceColons_cons_ne {b : Char} (hb : ¬ b = ':') (l : List Char) :
    replaceColons (b :: l) = b :: replaceColons l := by
  cases l with
  | nil => rfl
  | cons d ds => simp [replaceColons, hb]

/-- The output of `replaceColons` never contains two adjacent colons. -/
theorem hasDoubleColon_replaceColons : ∀ l, hasDoubleColon (replaceColons l) = false
  | [] => rfl
  | [_] => rfl
  | a :: b :: rest => by
    by_cases hab : (a == ':' && b == ':') = true
    · rw [replaceColons, if_pos hab]
      rw [hasDoubleColon_cons_ne (by decide)]
      exact hasDoubleColon_replaceColons rest
    · rw [replaceColons, if_neg hab]
      by_cases ha : a = ':'
      · have hb : ¬ b = ':' := by
          intro hbe
          exact hab (by simp [ha, hbe])
        rw [replaceColons_cons_ne hb]
        have ih := hasDoubleColon_replaceColons (b :: rest)
        rw [replaceColons_cons_ne hb] at ih
        rw [hasDoubleColon, ih, Bool.or_false]
        simp [hb]
      · rw [hasDoubleColon_cons_ne ha]
        exact hasDoubleColon_replaceColons (b :: rest)

/-- A string with no adjacent colons cannot start with `super::`. -/
theorem not_superPre_of_noDouble {s : List Char} (h : hasDoubleColon s = false) :
    hasPreL "super::".data s = false := by
  by_contra hne
  have htrue : hasPreL "super::".data s = true := by
    cases hp : hasPreL "super::".data s with
    | true => rfl
    | false => exact absurd hp hne
  obtain ⟨t, ht⟩ := (hasPreL_iff _ s).mp htrue
  rw [ht] at h
  simp [hasDoubleColon] at h

theorem replaceDotSlash_cons (c : Char) (l : List Char) :
    replaceDotSlash (c :: l) = (if c == '.' then '/' else c) :: replaceDotSlash l := rfl

/-- The map `replaceDotSlash` preserves prefixes made of characters other than
slash and dot. -/
theorem hasPre_replaceDotSlash (pre : List Char)
    (hpre : ∀ p ∈ pre, ¬ p = '/' ∧ ¬ p = '.') :
    ∀ l, hasPreL pre (replaceDotSlash l) = hasPreL pre l := by
  induction pre with
  | nil => intro l; rfl
  | cons p ps ih =>
    intro l
    obtain ⟨hp1, hp2⟩ := hpre p (List.mem_cons_self p ps)
    cases l with
    | nil => rfl
    | cons c cs =>
      have hps : ∀ x ∈ ps, ¬ x = '/' ∧ ¬ x = '.' :=
        fun x hx => hpre x (List.mem_cons_of_mem p hx)
      rw [replaceDotSlash_cons]
      by_cases hcd : c = '.'
      · subst hcd
        simp only [hasPreL]
        have h1 : (p == '/') = false := by simpa using hp1
        have h2 : (p == '.') = false := by simpa using hp2
        simp only [beq_self_eq_true, if_true]
        rw [h1, h2, Bool.false_and, Bool.false_and]
      · have hne : (c == '.') = false := by simpa using hcd
        simp only [hne, Bool.false_eq_true, if_false, hasPreL]
        rw [ih hps]

theorem firstNonEmpty_nil_cons (ls : List (List String)) :
    firstNonEmpty ([] :: ls) = firstNonEmpty ls := by
  simp [firstNonEmpty]

theorem firstNonEmpty_cons_ne {l : List String} (h : l ≠ []) (ls : List (List String)) :
    firstNonEmpty (l :: ls) = l := by
  have he : l.isEmpty = false := by simpa [List.isEmpty_iff] using h
  simp [firstNonEmpty, he]

theorem firstNonEmpty_singleton (l : List String) : firstNonEmpty [l] = l := by
  by_cases h : l = []
  · subst h
    rfl
  · exact firstNonEmpty_cons_ne h []

/-! ## Claim theorems -/

/-- C1 (counterexample): the claim that `imports[a]` never contains `a` fails
on the code: in the repository with the single file `foo.py` whose raw import
`foo` resolves to the file itself, `BuildFileGraph` stores the self-loop —
no step excludes resolved paths equal to the importing file. -/
theorem imports_self_loop_cex :
    "foo.py" ∈ lookupD selfGraph.imports "foo.py" := by decide

/-- C1 (amended): `imports[a]` is the in-order deduplication of all resolved
paths of the raw imports of `a`, with no exclusion of paths equal to `a`
itself; consequently `imports[a]` may contain `a`. -/
theorem buildFileGraph_imports_dedupe (goModule : String) (files : List String)
    (analyses : List AnalysisM) (a : AnalysisM)
    (hnd : (analyses.map AnalysisM.path).Nodup) (ha : a ∈ analyses)
    (hne : resolveAnalysis (buildFileIndex files goModule) goModule a ≠ []) :
    lookupD (buildFileGraph goModule files analyses).imports a.path
      = dedupe (resolveAnalysis (buildFileIndex files goModule) goModule a) := by
  unfold buildFileGraph
  exact foldl_imports_value _ _ analyses _ a hnd ha hne

/-- C1 (witness): the amended statement applied to the self-importing
repository. -/
theorem buildFileGraph_imports_dedupe_w :
    lookupD (buildFileGraph "" ["foo.py"] selfAnalyses).imports "foo.py"
      = dedupe (resolveAnalysis (buildFileIndex ["foo.py"] "") ""
          { path := "foo.py", imports := ["foo"] }) :=
  buildFileGraph_imports_dedupe "" ["foo.py"] selfAnalyses
    { path := "foo.py", imports := ["foo"] } (by decide) (by decide) (by decide)

/-- C2 (counterexample): the claim that the snapshot is serialized after every
appended event fails on the code: a daemon whose dependency computation left
`FileGraph` nil (`computeDeps` is best-effort) appends events but `writeState`
returns before writing anything. -/
theorem writeState_skip_cex :
    noDepsGraph.events ≠ [] ∧ writeStateM 0 noDepsGraph = none := by decide

/-- C2 (amended): whenever the daemon holds a computed file graph, the snapshot
written after an event contains the update timestamp, the current file count,
`hub_files()`, the two direction maps, and the last 50 events of the buffer;
when no file graph was computed, nothing is written. -/
theorem writeState_contents (now : Int) (g : GraphM) (fg : FileGraphM)
    (h : g.fileGraph = some fg) :
    writeStateM now g = some
      { updatedAt := now, fileCount := g.files.length, hubs := hubFiles fg,
        importers := fg.importers, imports := fg.imports,
        recentEvents := lastN 50 g.events } := by
  unfold writeStateM
  rw [h]

/-- C2 (witness): the snapshot written for a concrete daemon graph. -/
theorem writeState_contents_w :
    writeStateM 7 depsGraph = some
      { updatedAt := 7, fileCount := 2, hubs := [], importers := depsFG.importers,
        imports := depsFG.imports, recentEvents := depsGraph.events } := by
  rw [writeState_contents 7 depsGraph depsFG rfl]
  decide

/-- C5 (counterexample): the claim that deltas are computed against the most
recent prior CREATE/WRITE event in the buffer fails on the code: after the
initial full scan cached a 3 line `x.go`, the first WRITE (5 lines) carries
`delta = 2`, although the buffer holds no prior event for the path (the claim
would require `delta = 5`). -/
theorem event_delta_buffer_cex : ¬ claimDeltaProp writtenGraph.events :=
  fun h => absurd (h 0 (by decide) (Or.inr (by decide))) (by decide)

/-- C5 (amended): for a CREATE/WRITE event the recorded delta is
`lines - prev.lines` where `prev` is the cached per-path `FileState` at event
time (seeded by the full scan, updated by prior CREATE/WRITE, deleted on
REMOVE/RENAME), and `lines` when no cache entry exists. -/
theorem applyEvent_delta (g : GraphM) (op : Op) (p : String) (l sz : Int) (t : Int)
    (hop : op = Op.CREATE ∨ op = Op.WRITE) :
    (applyEvent g op p l sz t).events = g.events ++
      [{ time := t, op := op, path := p, lines := l,
         delta := match lookup? g.state p with
                  | some prev => l - prev.lines
                  | none => l,
         sizeDelta := match lookup? g.state p with
                      | some prev => sz - prev.size
                      | none => sz }] := by
  rcases hop with h | h <;> subst h <;>
    cases hl : lookup? g.state p <;> simp [applyEvent, hl]

/-- C5 (witness): the amended statement applied to the scanned daemon graph. -/
theorem applyEvent_delta_w :
    (applyEvent scannedGraph Op.WRITE "x.go" 5 12 0).events
      = scannedGraph.events ++
        [{ time := 0, op := Op.WRITE, path := "x.go", lines := 5, delta := 2,
           sizeDelta := 2 }] := by
  rw [applyEvent_delta scannedGraph Op.WRITE "x.go" 5 12 0 (Or.inr rfl)]
  decide

/-- C6 (confirmed): in every graph produced by `BuildFileGraph` (one analysis
per scanned file, so analysis paths are pairwise distinct), `b` is among
the imports of `a` exactly when `a` is among the importers of `b`. -/
theorem buildFileGraph_reverse_map (goModule : String) (files : List String)
    (analyses : List AnalysisM) (hnd : (analyses.map AnalysisM.path).Nodup)
    (a b : String) :
    b ∈ lookupD (buildFileGraph goModule files analyses).imports a ↔
      a ∈ lookupD (buildFileGraph goModule files analyses).importers b := by
  unfold buildFileGraph
  refine foldl_revMap _ _ analyses _ hnd ?_ ?_ a b
  · intro x _
    exact ⟨rfl, by simp⟩
  · intro x y
    simp [lookupD, lookup?]

/-- C6 (witness): the reverse-map property on a concrete two-file repository. -/
theorem buildFileGraph_reverse_map_w :
    (([{ path := "a.go", imports := ["types"] }] : List AnalysisM).map
        AnalysisM.path).Nodup ∧
    ("types.go" ∈ lookupD (buildFileGraph "" ["types.go", "a.go"]
        [{ path := "a.go", imports := ["types"] }]).imports "a.go" ↔
      "a.go" ∈ lookupD (buildFileGraph "" ["types.go", "a.go"]
        [{ path := "a.go", imports := ["types"] }]).importers "types.go") :=
  ⟨by decide, buildFileGraph_reverse_map "" ["types.go", "a.go"]
    [{ path := "a.go", imports := ["types"] }] (by decide) "a.go" "types.go"⟩

/-- C7 (confirmed): `IsHub` holds exactly for files with at least three of
the importers, and `HubFiles` returns exactly the paths satisfying `IsHub`
(the importers map, being a Go map, has pairwise distinct keys). -/
theorem isHub_iff_hubFiles (fg : FileGraphM)
    (hnd : (fg.importers.map Prod.fst).Nodup) (f : String) :
    (isHub fg f = true ↔ 3 ≤ (lookupD fg.importers f).length) ∧
      (f ∈ hubFiles fg ↔ isHub fg f = true) := by
  constructor
  · simp [isHub]
  · unfold hubFiles
    constructor
    · intro h
      obtain ⟨q, hq, hqf⟩ := List.mem_map.mp h
      obtain ⟨hqm, hql⟩ := List.mem_filter.mp hq
      have : lookup? fg.importers f = some q.2 := by
        refine lookup?_of_mem_nodup hnd ?_
        rw [← hqf]
        exact hqm
      simp only [isHub, lookupD, this, Option.getD_some]
      simpa using hql
    · intro h
      have h3 : 3 ≤ (lookupD fg.importers f).length := by simpa [isHub] using h
      have hne : lookupD fg.importers f ≠ [] := by
        intro he
        rw [he] at h3
        simp at h3
      cases hl : lookup? fg.importers f with
      | none => exact absurd (by simp [lookupD, hl]) hne
      | some v =>
        have hval : lookupD fg.importers f = v := by simp [lookupD, hl]
        refine List.mem_map.mpr ⟨(f, v), ?_, rfl⟩
        refine List.mem_filter.mpr ⟨lookup?_mem hl, ?_⟩
        rw [hval] at h3
        simpa using h3

/-- C7 (witness): the hub characterization on a concrete importers map. -/
theorem isHub_iff_hubFiles_w :
    (hubGraph.importers.map Prod.fst).Nodup ∧
      ((isHub hubGraph "t.go" = true ↔ 3 ≤ (lookupD hubGraph.importers "t.go").length) ∧
        ("t.go" ∈ hubFiles hubGraph ↔ isHub hubGraph "t.go" = true)) :=
  ⟨by decide, isHub_iff_hubFiles hubGraph (by decide) "t.go"⟩

/-- C8 (confirmed): `ReadState` yields the deserialized state exactly when the
file was read, parsed, and its age is at most 30 seconds; a missing,
unparseable, or stale snapshot reads as absent. -/
theorem readState_fresh_iff (disk : Option (Option StateSnap)) (now : Int)
    (st : StateSnap) :
    readStateM disk now = some st ↔
      disk = some (some st) ∧ now - st.updatedAt ≤ staleNs := by
  cases disk with
  | none => simp [readStateM]
  | some o =>
    cases o with
    | none => simp [readStateM]
    | some s0 =>
      show (if staleNs < now - s0.updatedAt then none else some s0) = some st ↔ _
      by_cases h : staleNs < now - s0.updatedAt
      · rw [if_pos h]
        constructor
        · intro hc
          exact absurd hc (by simp)
        · rintro ⟨h1, h2⟩
          have hs : s0 = st := Option.some.inj (Option.some.inj h1)
          subst hs
          omega
      · rw [if_neg h]
        constructor
        · intro hc
          have hs : s0 = st := Option.some.inj hc
          subst hs
          exact ⟨rfl, by omega⟩
        · rintro ⟨h1, h2⟩
          have hs : s0 = st := Option.some.inj (Option.some.inj h1)
          rw [hs]

/-- C8 (witness): a fresh parsed snapshot is returned. -/
theorem readState_fresh_iff_w :
    readStateM (some (some (snapAt 0))) 5 = some (snapAt 0) :=
  (readState_fresh_iff (some (some (snapAt 0))) 5 (snapAt 0)).mpr ⟨rfl, by decide⟩

/-- C10 (counterexample): the claim that files whose imports all failed to
resolve are absent from both maps fails on the code: `a.py` resolves nothing,
yet because `b.py` imports it, `a.py` is a key of the importers map. -/
theorem importers_unresolved_file_cex :
    resolveAnalysis (buildFileIndex ["a.py", "b.py"] "") ""
        { path := "a.py", imports := ["zzz"] } = [] ∧
      "a.py" ∈ unresolvedGraph.importers.map Prod.fst := by decide

/-- C10 (amended): the imports map has a key for a path exactly when that
analysis resolved at least one raw import (so no key maps to an empty list),
and every importers value is non-empty; a file whose imports all failed is
absent as a key from the imports map, though it may still appear as a key of
the importers map when other files import it. -/
theorem buildFileGraph_maps_nonempty (goModule : String) (files : List String)
    (analyses : List AnalysisM) :
    (∀ q ∈ (buildFileGraph goModule files analyses).imports, q.2 ≠ []) ∧
      (∀ q ∈ (buildFileGraph goModule files analyses).importers, q.2 ≠ []) ∧
      (∀ p : String,
        p ∈ (buildFileGraph goModule files analyses).imports.map Prod.fst ↔
          ∃ a ∈ analyses, a.path = p ∧
            resolveAnalysis (buildFileIndex files goModule) goModule a ≠ []) := by
  unfold buildFileGraph
  refine ⟨foldl_imports_nonempty _ _ analyses _ (by simp),
    foldl_importers_nonempty _ _ analyses _ (by simp), ?_⟩
  intro p
  rw [keys_imports_foldl]
  simp

/-- C10 (witness): the amended statement instantiated on the repository where
only `b.py` resolves an import. -/
theorem buildFileGraph_maps_nonempty_w :
    ("b.py", ["a.py"]) ∈ unresolvedGraph.imports ∧ ["a.py"] ≠ ([] : List String) :=
  ⟨by decide, (buildFileGraph_maps_nonempty "" ["a.py", "b.py"] unresolvedAnalyses).1
    ("b.py", ["a.py"]) (by decide)⟩

/-- C9 (confirmed): the `eventLoop` debouncer discards, before any state
update, every event whose arrival lies within 100 ms of the previously
processed event for the same path, so any two processed events for one path
are at least 100 ms apart. -/
theorem eventLoop_debounce_spacing (evs : List REvent) :
    List.Pairwise (fun a b => a.name = b.name → a.time + debounceWindowNs ≤ b.time)
      (processEvents [] evs) :=
  processEvents_spacing evs []

/-- C9 (witness): the spacing law on a concrete burst of three events for one
path. -/
theorem eventLoop_debounce_spacing_w :
    List.Pairwise (fun a b => a.name = b.name → a.time + debounceWindowNs ≤ b.time)
      (processEvents []
        [{ time := 0, name := "y.go", keep := true },
         { time := 50000000, name := "y.go", keep := true },
         { time := 200000000, name := "y.go", keep := true }]) :=
  eventLoop_debounce_spacing
    [{ time := 0, name := "y.go", keep := true },
     { time := 50000000, name := "y.go", keep := true },
     { time := 200000000, name := "y.go", keep := true }]

/-- C4 (counterexample): the claim that `super::` is handled like `crate::`
(prefix dropped) fails on the code: `normalizeImport` maps `super::foo` to
`super/foo` — only the `::` is replaced, the prefix is kept — while the
claimed normalization yields `foo`. -/
theorem normalizeImport_super_cex :
    normalizeImport "super::foo" = "super/foo" ∧
      normalizeImportSpec "super::foo" = "foo" := by decide

/-- C4 (amended): normalization strips surrounding quotes; replaces `.` with
the path separator when the string contains `.` but no `/` and does not start
with `.`; for a leading `crate::` drops that prefix and replaces `::`; and for
a leading `super::` replaces `::` only, keeping the `super` prefix. -/
theorem normalizeImport_characterization :
    (∀ (c : Char), c ∈ quoteChars → ∀ s : String,
        normalizeImport ⟨c :: s.data ++ [c]⟩ = normalizeImport s)
    ∧ (∀ s : String, trimQuotesL s.data = s.data →
        s.data.contains '.' = true → s.data.contains '/' = false →
        hasPreL ['.'] s.data = false →
        hasPreL "crate::".data s.data = false →
        hasPreL "super::".data s.data = false →
        normalizeImport s = ⟨replaceDotSlash s.data⟩)
    ∧ (∀ s : String, trimQuotesL s.data = s.data →
        s.data.contains '.' = false →
        hasPreL "crate::".data s.data = true →
        normalizeImport s = ⟨replaceColons (trimPreL "crate::".data s.data)⟩)
    ∧ (∀ s : String, trimQuotesL s.data = s.data →
        s.data.contains '.' = false →
        hasPreL "super::".data s.data = true →
        normalizeImport s = ⟨replaceColons s.data⟩) := by
  refine ⟨?_, ?_, ?_, ?_⟩
  · intro c hc s
    show (⟨normalizePost (trimQuotesL (c :: s.data ++ [c]))⟩ : String)
      = ⟨normalizePost (trimQuotesL s.data)⟩
    rw [trimQuotesL_wrap c hc]
  · intro s htrim hcd hcs hcp hcr hsu
    show (⟨normalizePost (trimQuotesL s.data)⟩ : String) = ⟨replaceDotSlash s.data⟩
    rw [htrim]
    unfold normalizePost
    have hcond : (s.data.contains '.' && !(s.data.contains '/')
        && !(hasPreL ['.'] s.data)) = true := by
      rw [hcd, hcs, hcp]
      rfl
    simp only [hcond, if_true]
    have h2 : hasPreL "crate::".data (replaceDotSlash s.data) = false := by
      rw [hasPre_replaceDotSlash _ (by decide) s.data]
      exact hcr
    have h3 : hasPreL "super::".data (replaceDotSlash s.data) = false := by
      rw [hasPre_replaceDotSlash _ (by decide) s.data]
      exact hsu
    simp only [h2, h3, Bool.false_eq_true, if_false]
  · intro s htrim hcd hcp
    show (⟨normalizePost (trimQuotesL s.data)⟩ : String)
      = ⟨replaceColons (trimPreL "crate::".data s.data)⟩
    rw [htrim]
    unfold normalizePost
    have hcond : (s.data.contains '.' && !(s.data.contains '/')
        && !(hasPreL ['.'] s.data)) = false := by
      rw [hcd]
      rfl
    simp only [hcond, Bool.false_eq_true, if_false]
    simp only [hcp, if_true]
    have h3 : hasPreL "super::".data
        (replaceColons (trimPreL "crate::".data s.data)) = false :=
      not_superPre_of_noDouble (hasDoubleColon_replaceColons _)
    simp only [h3, Bool.false_eq_true, if_false]
  · intro s htrim hcd hsu
    show (⟨normalizePost (trimQuotesL s.data)⟩ : String) = ⟨replaceColons s.data⟩
    rw [htrim]
    unfold normalizePost
    have hcond : (s.data.contains '.' && !(s.data.contains '/')
        && !(hasPreL ['.'] s.data)) = false := by
      rw [hcd]
      rfl
    have hcp : hasPreL "crate::".data s.data = false := by
      obtain ⟨t, ht⟩ := (hasPreL_iff _ _).mp hsu
      rw [ht]
      rfl
    simp only [hcond, hcp, Bool.false_eq_true, if_false]
    simp only [hsu, if_true]

/-- C4 (witness): the amended `super::` clause applied to `super::foo`. -/
theorem normalizeImport_characterization_w :
    normalizeImport "super::foo" = ⟨replaceColons "super::foo".data⟩ :=
  normalizeImport_characterization.2.2.2 "super::foo" (by decide) (by decide) (by decide)

/-- C3 (counterexample): the claim that an empty strategy result lets later
strategies run fails on the code: the relative import `.foo` from
`sub/main.py` resolves nothing relatively and `fuzzyResolve` returns empty,
although the exact-match strategy (tried next per the claim) would find
`.foo.py`, as the spec-worded resolver shows. -/
theorem fuzzyResolve_relative_commit_cex :
    fuzzyResolve ".foo" "sub/main.py" dotIdx "" = [] ∧
      fuzzyResolveSpec ".foo" "sub/main.py" dotIdx "" = [".foo.py"] := by decide

/-- C3 (amended): for imports that do not start with `.`, the resolver
returns the first non-empty result among the module, exact and suffix
strategies; for an import starting with `.` it commits to relative resolution
and returns its result even when empty, skipping the later strategies. -/
theorem fuzzyResolve_strategy_order :
    (∀ (imp fromFile : String) (files : List String) (goModule : String),
        strHasPre "." imp = false →
        fuzzyResolve imp fromFile (buildFileIndex files goModule) goModule
          = fuzzyResolveSpec imp fromFile (buildFileIndex files goModule) goModule)
    ∧ (∀ (imp fromFile : String) (idx : FileIndexM) (goModule : String),
        strHasPre "." imp = true →
        (goModule ≠ "" && strHasPre goModule imp) = false →
        fuzzyResolve imp fromFile idx goModule
          = resolveRelative imp
              (if dirOf fromFile = "." then "" else dirOf fromFile) idx) := by
  constructor
  · intro imp fromFile files gm hdot
    unfold fuzzyResolve fuzzyResolveSpec
    by_cases hc : (gm ≠ "" && strHasPre gm imp) = true
    · simp only [hc, if_true]
      cases hl : lookup? (buildFileIndex files gm).goPkgs imp with
      | some fs =>
        have hne : fs ≠ [] :=
          goPkgs_buildFileIndex_nonempty files gm (imp, fs) (lookup?_mem hl)
        simp only [lookupD, hl, Option.getD_some]
        rw [firstNonEmpty_cons_ne hne]
      | none =>
        simp only [lookupD, hl, Option.getD_none]
        rw [firstNonEmpty_nil_cons]
        simp only [hdot, Bool.false_eq_true, if_false]
        rw [firstNonEmpty_nil_cons]
        by_cases he : tryExactMatch (normalizeImport imp) (buildFileIndex files gm) = []
        · simp only [he, ne_eq, not_true_eq_false, if_false]
          rw [firstNonEmpty_nil_cons, firstNonEmpty_singleton]
        · simp only [he, ne_eq, not_false_eq_true, if_true]
          rw [firstNonEmpty_cons_ne he]
    · have hcf : (gm ≠ "" && strHasPre gm imp) = false := by
        cases hx : (gm ≠ "" && strHasPre gm imp) with
        | true => exact absurd hx hc
        | false => rfl
      simp only [hcf, Bool.false_eq_true, if_false]
      simp only [hdot, Bool.false_eq_true, if_false]
      rw [firstNonEmpty_nil_cons, firstNonEmpty_nil_cons]
      by_cases he : tryExactMatch (normalizeImport imp) (buildFileIndex files gm) = []
      · simp only [he, ne_eq, not_true_eq_false, if_false]
        rw [firstNonEmpty_nil_cons, firstNonEmpty_singleton]
      · simp only [he, ne_eq, not_false_eq_true, if_true]
        rw [firstNonEmpty_cons_ne he]
  · intro imp fromFile idx gm hdot hmod
    unfold fuzzyResolve
    simp only [hmod, Bool.false_eq_true, if_false]
    simp only [hdot, if_true]

/-- C3 (witness): the amended statement on concrete inputs — a dotted Python
style input agreeing with the spec resolver, and a committed relative one. -/
theorem fuzzyResolve_strategy_order_w :
    fuzzyResolve "app.core.config" "app/main.py"
        (buildFileIndex ["app/core/config.py", "app/main.py"] "") ""
      = fuzzyResolveSpec "app.core.config" "app/main.py"
          (buildFileIndex ["app/core/config.py", "app/main.py"] "") "" ∧
    fuzzyResolve ".foo" "sub/main.py" dotIdx ""
      = resolveRelative ".foo" "sub" dotIdx :=
  ⟨fuzzyResolve_strategy_order.1 "app.core.config" "app/main.py"
      ["app/core/config.py", "app/main.py"] "" (by decide),
    fuzzyResolve_strategy_order.2 ".foo" "sub/main.py" dotIdx "" (by decide) (by decide)⟩

end Codemap
